import Mathlib

/-!
# cpp-misadventures/main.cpp

A shallow embedding of the demonstration routines of `main.cpp` and the
properties of them that the specification states.

* `std::string` is `String`; `std::vector<T>` is `List T`.
* `int` is a mathematical integer reduced into the 32-bit two's-complement
  range by `wrapInt` wherever the program does arithmetic on it.
* `std::cout` is the field `cout` of `World`; `<< std::endl` appends `"\n"`.
* A reference parameter is passed in as a value and handed back in the result.
* The threads of Example 4 are a step relation on a state type, driven by a
  schedule: the list of the indices of the threads that take the next step.
  Under the mutex a step is a whole iteration (`safeStep`). Without it a step is
  one character access to the shared string (`tornStep`); `madStep` is the
  coarser relation in which every read and every store runs undivided, and its
  runs are the runs of `tornStep` in which none of them is interrupted
  (`tornRun_uninterrupted`).
-/

namespace CppMisadventures

/-! ## The `int` type and the text conversions of the standard library -/

/-- Reduction of a mathematical integer into the range of a 32-bit `int`,
`[-2147483648, 2147483647]`. -/
def wrapInt (x : Int) : Int := (x + 2147483648) % 4294967296 - 2147483648

/-- The character of the decimal digit `d`: `'0' + d`. -/
def digitChar (d : Nat) : Char := Char.ofNat (48 + d)

/-- The decimal digits of `n`, most significant first, pushed in front of `acc`.
The first argument bounds the number of digits that are produced. -/
def toDigitsAux : Nat → Nat → List Char → List Char
  | 0, _, acc => acc
  | fuel + 1, n, acc =>
    if n / 10 = 0 then digitChar (n % 10) :: acc
    else toDigitsAux fuel (n / 10) (digitChar (n % 10) :: acc)

/-- The decimal digits of a natural number (`n + 1` bounds their number). -/
def natDigits (n : Nat) : List Char := toDigitsAux (n + 1) n []

/-- The function `std::to_string(int)`: the text `printf("%d")` produces, a minus
sign for a negative value followed by the decimal digits of the magnitude. -/
def to_string (value : Int) : String :=
  if value < 0 then String.mk ('-' :: natDigits value.natAbs)
  else String.mk (natDigits value.toNat)

/-- The C library `isspace` in the "C" locale: space, `\t`, `\n`, `\v`, `\f`, `\r`. -/
def isspace (c : Char) : Bool := c.toNat == 32 || (9 ≤ c.toNat && c.toNat ≤ 13)

/-- The C library `isdigit`: `'0'` to `'9'`. -/
def isdigit (c : Char) : Bool := 48 ≤ c.toNat && c.toNat ≤ 57

/-- The leading white space of a C string is skipped. -/
def skipSpace : List Char → List Char
  | [] => []
  | c :: cs => if isspace c then skipSpace cs else c :: cs

/-- The longest run of decimal digits is accumulated into `acc`; the result is
the number read and the text that was not consumed. -/
def scanDigits : List Char → Nat → Nat × List Char
  | [], acc => (acc, [])
  | c :: cs, acc =>
    if isdigit c then scanDigits cs (acc * 10 + (c.toNat - 48)) else (acc, c :: cs)

/-- The conversion at the heart of `atoi` (that of `strtol` in base 10): white
space, an optional sign, then decimal digits. The result is the number read and
the text left unconsumed. A NUL character, which ends the C string that
`c_str()` exposes, is neither white space nor a digit and so ends the
conversion as well. -/
def parseInt (cs : List Char) : Int × List Char :=
  match skipSpace cs with
  | '-' :: rest => (-((scanDigits rest 0).1 : Int), (scanDigits rest 0).2)
  | '+' :: rest => (((scanDigits rest 0).1 : Int), (scanDigits rest 0).2)
  | rest => (((scanDigits rest 0).1 : Int), (scanDigits rest 0).2)

/-- The call `atoi(str.c_str())`. The C standard leaves the result undefined when
the number is outside the range of `int`; here it is reduced by `wrapInt`. -/
def atoi (str : String) : Int := wrapInt (parseInt str.data).1

/-- The statement `value++` on an `int`. C++ leaves signed overflow undefined;
here the result is reduced by `wrapInt`. -/
def increment (value : Int) : Int := wrapInt (value + 1)

/-- One read-modify-write cycle on the text counter (`main.cpp` lines 110-112 and
136-138): `int value = atoi(intStr.c_str()); value++; intStr = std::to_string(value);`.
The result is the new content of `intStr`. -/
def cycle (intStr : String) : String := to_string (increment (atoi intStr))

/-! ## Standard output and the record of calls -/

/-- What the routines act on besides their variables: the text written to
`std::cout` so far, and the record of the calls of the two operations of
Example 5 that may fail (the name of the function, in call order). -/
structure World where
  cout : String
  calls : List String
  deriving DecidableEq, Repr

/-- The operation `std::cout << s`. -/
def World.print (w : World) (s : String) : World := { w with cout := w.cout ++ s }

/-- The operation `std::cout << std::endl`. -/
def World.endl (w : World) : World := { w with cout := w.cout ++ "\n" }

/-- A call of the function `name` is recorded. -/
def World.called (w : World) (name : String) : World :=
  { w with calls := w.calls ++ [name] }

/-! ## Example 2: Verbosity of Mutability 1 -/

/-- The move construction of a `std::string` from `src`: the new string takes
the content and, as the comment in `passVec` says, `src` is left empty. The
result is (the new string, what is left in `src`). -/
def moveString (src : String) : String × String := (src, "")

/-- The function `doWithStr(std::string&& str)` (lines 45-49). The result is the
content of the caller's string afterwards and the new world. -/
def doWithStr (str : String) (w : World) : String × World :=
  let strs : List String := []
  let moved := moveString str
  let strs := strs ++ [moved.1]
  let str := moved.2
  (str, (w.print (strs.getD 0 "")).endl)

/-- The function `passVec()` (lines 51-59). -/
def passVec (w : World) : World :=
  let str := "Test"
  let r := doWithStr str w
  let str := r.1
  ((r.2.print "str is now: ").print str).endl

/-! ## Example 3: Verbosity of Mutability 2 -/

/-- The function `justPrintISwear(std::string& str)` (lines 66-70). The result is
the content of the caller's string afterwards and the new world. -/
def justPrintISwear (str : String) (w : World) : String × World :=
  let w := (w.print str).endl
  let str := "I lied! "
  (str, w)

/-- The function `beDeceived()` (lines 72-76). -/
def beDeceived (w : World) : World :=
  let str := "Innocent String"
  let r := justPrintISwear str w
  let str := r.1
  (r.2.print str).endl

/-! ## Example 5: Don't Ignore Errors -/

/-- The function `somethingThatMayFail()` (lines 157-159): it returns `false`. -/
def somethingThatMayFail (w : World) : Bool × World :=
  (false, w.called "somethingThatMayFail")

/-- The function `somethingThatMayFailWithResult(std::string& outValue)` (lines
161-163): it returns `false` and does not assign `outValue`. The result is the
returned status, the content of `outValue` afterwards and the new world. -/
def somethingThatMayFailWithResult (outValue : String) (w : World) :
    Bool × String × World :=
  (false, outValue, w.called "somethingThatMayFailWithResult")

/-- The function `doWithFailures()` (lines 166-175). -/
def doWithFailures (w : World) : World :=
  let r := somethingThatMayFail w
  let w := r.2
  let value := ""
  let r := somethingThatMayFailWithResult value w
  let value := r.2.1
  let w := r.2.2
  (w.print value).endl

/-- The function `handleFailures()` (lines 178-190). -/
def handleFailures (w : World) : World :=
  let r := somethingThatMayFail w
  let w := r.2
  if !r.1 then
    (w.print "Something failed. Aborting...").endl
  else
    let value := ""
    let r := somethingThatMayFailWithResult value w
    let value := r.2.1
    let w := r.2.2
    if r.1 then (w.print value).endl else w

/-! ## Example 4: Mad Threads, reads and stores undivided -/

/-- A thread of `madThreads` (the lambda of lines 108-114): its loop counter `j`
and, between the read of line 110 and the store of line 112, the `value` it has
read (`none` when the thread is at the head of its loop). -/
structure MadThread where
  j : Nat
  value : Option Int
  deriving DecidableEq, Repr

/-- The locals of one round of `madThreads`: the shared counter text `intStr`
and the vector `threads`. -/
structure MadState where
  intStr : String
  threads : List MadThread
  deriving DecidableEq, Repr

/-- The loop of lines 107-115: `n` threads are pushed onto `threads`, each at the
head of its loop with `j = 0`. -/
def madSpawn : Nat → MadState → MadState
  | 0, s => s
  | n + 1, s => madSpawn n { s with threads := s.threads ++ [⟨0, none⟩] }

/-- The locals at the start of a round (lines 103-115), `prev` being what the
previous round left in their place: `intStr` is initialised to `"10000"`,
`threads` to the empty vector, and the 100 threads are created. -/
def madEnter (prev : MadState) : MadState :=
  madSpawn 100 { prev with intStr := "10000", threads := [] }

/-- One step of thread `i` when every read and every store runs undivided; this
leaves out the runs in which a read or a store is interrupted, which `tornStep`
has. At the head of its loop with `j < 100` the thread reads: `value = atoi(intStr)`
(line 110). With a value read it stores: `value++; intStr = to_string(value)`
(lines 111-112), and `j++`. A thread at the head of its loop with `j = 100` has
ended and takes no step, nor does a thread that does not exist. -/
def madStep (i : Nat) (s : MadState) : Option MadState :=
  match s.threads[i]? with
  | none => none
  | some t =>
    match t.value with
    | none =>
      if t.j < 100 then
        some { s with threads := s.threads.set i { t with value := some (atoi s.intStr) } }
      else none
    | some value =>
      some { intStr := to_string (increment value),
             threads := s.threads.set i { j := t.j + 1, value := none } }

/-- The steps of a schedule are taken in order; `none` when the schedule asks a
step of a thread that cannot take one. A thread that has not taken a step yet
is in the state in which it is created, so an interleaving in which a thread
starts before a later one is created is a schedule as well. -/
def madRun : List Nat → MadState → Option MadState
  | [], s => some s
  | i :: rest, s =>
    match madStep i s with
    | none => none
    | some s' => madRun rest s'

/-- All threads have ended, so that the joins of lines 117-119 return. -/
def madJoined (s : MadState) : Bool :=
  s.threads.all (fun t => t.j == 100 && t.value.isNone)

/-- One round of `madThreads` (the body of the loop of line 102) under the
schedule `sched`. The result is `none` when `sched` is not a complete run of
the 100 threads. -/
def madRound (round : Nat) (sched : List Nat) (prev : MadState) (w : World) :
    Option (MadState × World) :=
  match madRun sched (madEnter prev) with
  | none => none
  | some s =>
    if madJoined s then
      some (s, ((((w.print "(").print (to_string round)).print "/9) intStr: ").print
        s.intStr).endl)
    else none

/-- The rounds `round`, `round + 1`, ... of `madThreads`, `n` of them; the
schedule of round `r` is `scheds r`. -/
def madRounds (scheds : Nat → List Nat) : Nat → Nat → MadState → World →
    Option (MadState × World)
  | 0, _, s, w => some (s, w)
  | n + 1, round, s, w =>
    match madRound round (scheds round) s w with
    | none => none
    | some r => madRounds scheds n (round + 1) r.1 r.2

/-- The function `madThreads()` (lines 101-123): rounds 0 to 9. -/
def madThreads (scheds : Nat → List Nat) (s : MadState) (w : World) :
    Option (MadState × World) :=
  madRounds scheds 10 0 s w

/-! ## Example 4: Mad Threads, character by character

Nothing in `madThreads` makes the read of line 110 or the store of line 112
indivisible: `atoi` scans the characters of the shared string one after the
other, and the assignment copies the characters of the new text into it one
after the other. The step relation below takes one character access as a step,
so that a read can see a text that is stored by halves. -/

/-- The locals of one round of `safeThreads`: the shared counter text `intStr`
and the vector `threads`, a thread (the lambda of lines 133-140) being its loop
counter `j`. The mutex `mut` is free between two steps. -/
structure SafeState where
  intStr : String
  threads : List Nat
  deriving DecidableEq, Repr

/-- The loop of lines 132-141: `n` threads are pushed onto `threads`, each with
`j = 0`. -/
def safeSpawn : Nat → SafeState → SafeState
  | 0, s => s
  | n + 1, s => safeSpawn n { s with threads := s.threads ++ [0] }

/-- The locals at the start of a round (lines 127-141), `prev` being what the
previous round left in their place. -/
def safeEnter (prev : SafeState) : SafeState :=
  safeSpawn 100 { prev with intStr := "10000", threads := [] }

/-- One step of thread `i`: a whole iteration of its loop (lines 135-138), which
the `lock_guard` on `mut` makes atomic with respect to the other threads. A
thread with `j = 100` has ended and takes no step, nor does a thread that does
not exist. -/
def safeStep (i : Nat) (s : SafeState) : Option SafeState :=
  match s.threads[i]? with
  | none => none
  | some j =>
    if j < 100 then
      some { intStr := cycle s.intStr, threads := s.threads.set i (j + 1) }
    else none

/-- The steps of a schedule are taken in order; `none` when the schedule asks a
step of a thread that cannot take one. -/
def safeRun : List Nat → SafeState → Option SafeState
  | [], s => some s
  | i :: rest, s =>
    match safeStep i s with
    | none => none
    | some s' => safeRun rest s'

/-- All threads have ended, so that the joins of lines 143-145 return. -/
def safeJoined (s : SafeState) : Bool := s.threads.all (fun j => j == 100)

/-- One round of `safeThreads` (the body of the loop of line 126) under the
schedule `sched`. The result is `none` when `sched` is not a complete run of
the 100 threads. -/
def safeRound (round : Nat) (sched : List Nat) (prev : SafeState) (w : World) :
    Option (SafeState × World) :=
  match safeRun sched (safeEnter prev) with
  | none => none
  | some s =>
    if safeJoined s then
      some (s, ((((w.print "(").print (to_string round)).print "/9) safer intStr: ").print
        s.intStr).endl)
    else none

/-- The rounds `round`, `round + 1`, ... of `safeThreads`, `n` of them; the
schedule of round `r` is `scheds r`. -/
def safeRounds (scheds : Nat → List Nat) : Nat → Nat → SafeState → World →
    Option (SafeState × World)
  | 0, _, s, w => some (s, w)
  | n + 1, round, s, w =>
    match safeRound round (scheds round) s w with
    | none => none
    | some r => safeRounds scheds n (round + 1) r.1 r.2

/-- The function `safeThreads()` (lines 125-149): rounds 0 to 9. -/
def safeThreads (scheds : Nat → List Nat) (s : SafeState) (w : World) :
    Option (SafeState × World) :=
  safeRounds scheds 10 0 s w

/-- The schedule in which the threads `first`, `first + 1`, ... (`count` of
them) run one after the other, each taking `steps` steps in a row. -/
def soloSchedule (steps : Nat) : Nat → Nat → List Nat
  | 0, _ => []
  | count + 1, first => List.replicate steps first ++ soloSchedule steps count (first + 1)

/-- A schedule of `madThreads` with a lost update: threads 0 and 1 both read the
counter before either stores; everything after that runs one thread at a time. -/
def lostUpdateSchedule : List Nat :=
  [0, 1, 0, 1] ++ List.replicate 198 0 ++ List.replicate 198 1 ++ soloSchedule 200 98 2

/-- What every state of a round of `safeThreads` satisfies: the counter text is
the decimal text of 10000 plus the number of iterations the threads have made,
there are 100 threads, and none has made more than 100 iterations. -/
def SafeInv (s : SafeState) : Prop :=
  s.intStr = to_string ((10000 + (s.threads.map id).sum : Nat) : Int) ∧
  s.threads.length = 100 ∧ ∀ j ∈ s.threads, j ≤ 100

/-- What every state of a round satisfies that `madStep` reaches, that is, with
no read and no store interrupted: the counter text is the decimal text of a number
between 10000 and 10000 plus the number of stores made so far (the sum of the
loop counters); there are 100 threads; no thread has made more than 100
iterations; and a value that a thread has read and not yet stored lies in the
same interval, that thread having made fewer than 100 iterations. -/
def MadInv (s : MadState) : Prop :=
  (∃ n : Nat, s.intStr = to_string (n : Int) ∧ 10000 ≤ n ∧
    n ≤ 10000 + (s.threads.map MadThread.j).sum) ∧
  s.threads.length = 100 ∧
  ∀ t ∈ s.threads, t.j ≤ 100 ∧
    ∀ v : Int, t.value = some v →
      t.j < 100 ∧ 10000 ≤ v ∧ v ≤ 10000 + ((s.threads.map MadThread.j).sum : Nat)

/-- The number of steps a thread of `madThreads` has taken: a read and a store
for each iteration made, and one more when a value is read and not yet stored. -/
def madSteps (t : MadThread) : Nat :=
  match t.value with
  | none => 2 * t.j
  | some _ => 2 * t.j + 1

/-! ## Properties of the text conversions -/

theorem digitChar_toNat (d : Nat) (h : d < 10) : (digitChar d).toNat = 48 + d := by
  interval_cases d <;> rfl

theorem isdigit_digitChar (d : Nat) (h : d < 10) : isdigit (digitChar d) = true := by
  interval_cases d <;> rfl

theorem isspace_digitChar (d : Nat) (h : d < 10) : isspace (digitChar d) = false := by
  interval_cases d <;> rfl

theorem digitChar_ne_minus (d : Nat) (h : d < 10) : digitChar d ≠ '-' := by
  interval_cases d <;> decide

theorem digitChar_ne_plus (d : Nat) (h : d < 10) : digitChar d ≠ '+' := by
  interval_cases d <;> decide

theorem scanDigits_digitChar (d : Nat) (h : d < 10) (rest : List Char) (a : Nat) :
    scanDigits (digitChar d :: rest) a = scanDigits rest (a * 10 + d) := by
  simp [scanDigits, isdigit_digitChar d h, digitChar_toNat d h]

/-- Reading back the digits that `toDigitsAux` wrote in front of `rest` shifts
the accumulator by their number and adds the number written. -/
theorem scanDigits_toDigitsAux (fuel : Nat) :
    ∀ (n : Nat) (rest : List Char), n < 10 ^ fuel →
      ∃ k, ∀ a, scanDigits (toDigitsAux fuel n rest) a = scanDigits rest (a * 10 ^ k + n) := by
  induction fuel with
  | zero =>
    intro n rest h
    have h0 : n = 0 := by simpa using h
    subst h0
    exact ⟨0, fun a => by simp [toDigitsAux]⟩
  | succ fuel ih =>
    intro n rest h
    have hmod : n % 10 < 10 := Nat.mod_lt _ (by decide)
    by_cases hq : n / 10 = 0
    · refine ⟨1, fun a => ?_⟩
      have hn : n % 10 = n := by omega
      simp only [toDigitsAux, hq, if_true]
      rw [scanDigits_digitChar _ hmod, hn, pow_one]
    · have hlt : n / 10 < 10 ^ fuel := by
        rw [Nat.div_lt_iff_lt_mul (by decide)]
        rw [pow_succ] at h
        exact h
      obtain ⟨k, hk⟩ := ih (n / 10) (digitChar (n % 10) :: rest) hlt
      refine ⟨k + 1, fun a => ?_⟩
      simp only [toDigitsAux, hq, if_false]
      rw [hk a, scanDigits_digitChar _ hmod]
      have : (a * 10 ^ k + n / 10) * 10 + n % 10 = a * 10 ^ (k + 1) + n := by
        rw [pow_succ]
        have := Nat.div_add_mod n 10
        nlinarith
      rw [this]

theorem toDigitsAux_head (fuel : Nat) :
    ∀ (n : Nat) (rest : List Char),
      ∃ d, d < 10 ∧ ∃ tl, toDigitsAux (fuel + 1) n rest = digitChar d :: tl := by
  induction fuel with
  | zero =>
    intro n rest
    refine ⟨n % 10, Nat.mod_lt _ (by decide), ?_⟩
    by_cases hq : n / 10 = 0 <;> simp [toDigitsAux, hq]
  | succ fuel ih =>
    intro n rest
    by_cases hq : n / 10 = 0
    · exact ⟨n % 10, Nat.mod_lt _ (by decide), rest, by simp [toDigitsAux, hq]⟩
    · obtain ⟨d, hd, tl, htl⟩ := ih (n / 10) (digitChar (n % 10) :: rest)
      refine ⟨d, hd, tl, ?_⟩
      rw [← htl]
      conv_lhs => unfold toDigitsAux
      simp [hq]

theorem scanDigits_natDigits (n : Nat) : scanDigits (natDigits n) 0 = (n, []) := by
  have hlt : n < 10 ^ (n + 1) :=
    lt_trans (Nat.lt_succ_self n) (Nat.lt_pow_self (by decide) (n + 1))
  obtain ⟨k, hk⟩ := scanDigits_toDigitsAux (n + 1) n [] hlt
  simp [natDigits, hk 0, scanDigits]

/-- The conversion of `atoi` reads the digits of `n` back as `n` and leaves no
text unconsumed. -/
theorem parseInt_natDigits (n : Nat) : parseInt (natDigits n) = ((n : Int), []) := by
  obtain ⟨d, hd, tl, htl⟩ := toDigitsAux_head n n []
  have hs : skipSpace (natDigits n) = natDigits n := by
    simp [natDigits, htl, skipSpace, isspace_digitChar d hd]
  have hscan := scanDigits_natDigits n
  unfold parseInt
  rw [hs]
  split
  · rename_i rest heq
    rw [natDigits, htl] at heq
    exact absurd (List.cons.inj heq).1 (digitChar_ne_minus d hd)
  · rename_i rest heq
    rw [natDigits, htl] at heq
    exact absurd (List.cons.inj heq).1 (digitChar_ne_plus d hd)
  · rw [hscan]

theorem to_string_natCast (n : Nat) : to_string (n : Int) = String.mk (natDigits n) := by
  simp [to_string]

theorem wrapInt_of_range (x : Int) (h0 : -2147483648 ≤ x) (h1 : x ≤ 2147483647) :
    wrapInt x = x := by
  unfold wrapInt
  omega

theorem parseInt_to_string (n : Nat) : parseInt (to_string (n : Int)).data = ((n : Int), []) := by
  rw [to_string_natCast]
  exact parseInt_natDigits n

theorem atoi_to_string (n : Nat) (h : n ≤ 2147483647) : atoi (to_string (n : Int)) = n := by
  unfold atoi
  rw [parseInt_to_string]
  exact wrapInt_of_range _ (by omega) (by omega)

theorem cycle_to_string (n : Nat) (h : n < 2147483647) :
    cycle (to_string (n : Int)) = to_string ((n + 1 : Nat) : Int) := by
  unfold cycle increment
  rw [atoi_to_string n (by omega), wrapInt_of_range _ (by omega) (by omega)]
  rfl

theorem to_string_10000 : to_string 10000 = "10000" := by decide

theorem to_string_20000 : to_string 20000 = "20000" := by decide

/-- The conversions on a few texts: signs, white space, leading zeros, text
after the digits, and no digits at all. -/
theorem conversions_examples :
    to_string 0 = "0" ∧ to_string (-5) = "-5" ∧ to_string 2147483647 = "2147483647" ∧
    to_string 19999 = "19999" ∧ atoi "10000" = 10000 ∧ atoi "  -12ab" = -12 ∧
    atoi "+007" = 7 ∧ atoi "" = 0 ∧ atoi "x1" = 0 ∧
    parseInt "12 34".data = (12, " 34".data) := by
  decide

theorem iterate_cycle (k : Nat) :
    ∀ n : Nat, n + k ≤ 2147483647 →
      cycle^[k] (to_string (n : Int)) = to_string ((n + k : Nat) : Int) := by
  induction k with
  | zero => intro n _; rfl
  | succ k ih =>
    intro n h
    rw [Function.iterate_succ_apply, cycle_to_string n (by omega), ih (n + 1) (by omega)]
    congr 2
    omega

/-! ## List lemmas for the thread vectors -/

theorem sum_map_set {α : Type} (f : α → Nat) :
    ∀ (l : List α) (i : Nat) (t x : α), l[i]? = some t →
      ((l.set i x).map f).sum + f t = (l.map f).sum + f x := by
  intro l
  induction l with
  | nil => intro i t x h; simp at h
  | cons a l ih =>
    intro i t x h
    cases i with
    | zero =>
      simp at h
      subst h
      simp [List.set]
      omega
    | succ i =>
      have := ih i t x (by simpa using h)
      simp only [List.set, List.map_cons, List.sum_cons]
      omega

theorem sum_map_le {α : Type} (f : α → Nat) (c : Nat) :
    ∀ l : List α, (∀ t ∈ l, f t ≤ c) → (l.map f).sum ≤ c * l.length := by
  intro l
  induction l with
  | nil => intro _; simp
  | cons a l ih =>
    intro h
    have ha := h a (by simp)
    have hl := ih (fun t ht => h t (by simp [ht]))
    simp only [List.map_cons, List.sum_cons, List.length_cons]
    rw [Nat.mul_succ]
    omega

theorem sum_map_eq {α : Type} (f : α → Nat) (c : Nat) :
    ∀ l : List α, (∀ t ∈ l, f t = c) → (l.map f).sum = c * l.length := by
  intro l
  induction l with
  | nil => intro _; simp
  | cons a l ih =>
    intro h
    have ha := h a (by simp)
    have hl := ih (fun t ht => h t (by simp [ht]))
    simp only [List.map_cons, List.sum_cons, List.length_cons]
    rw [Nat.mul_succ]
    omega

/-! ## The threads under the mutex -/

theorem safeSpawn_eq (n : Nat) :
    ∀ s : SafeState, safeSpawn n s = { s with threads := s.threads ++ List.replicate n 0 } := by
  induction n with
  | zero => intro s; simp [safeSpawn]
  | succ n ih =>
    intro s
    rw [safeSpawn, ih]
    simp [List.replicate_succ]

theorem safeEnter_eq (prev : SafeState) :
    safeEnter prev = { intStr := "10000", threads := List.replicate 100 0 } := by
  rw [safeEnter, safeSpawn_eq]
  rfl

theorem safeInv_sum_le {s : SafeState} (h : SafeInv s) : (s.threads.map id).sum ≤ 10000 := by
  have := sum_map_le id 100 s.threads h.2.2
  rw [h.2.1] at this
  exact this

theorem safeInv_enter (prev : SafeState) : SafeInv (safeEnter prev) := by
  rw [safeEnter_eq]
  refine ⟨?_, by simp, ?_⟩
  · simp only [List.map_id, List.sum_replicate, smul_eq_mul, Nat.mul_zero, Nat.add_zero]
    exact to_string_10000.symm
  · intro j hj
    rw [List.eq_of_mem_replicate hj]
    omega

theorem safeInv_step (i : Nat) (s s' : SafeState) (h : SafeInv s)
    (hs : safeStep i s = some s') : SafeInv s' := by
  unfold safeStep at hs
  split at hs
  · exact absurd hs (by simp)
  · rename_i j hj
    split at hs
    · rename_i hlt
      have hs' := (Option.some.inj hs).symm
      subst hs'
      have hsum := sum_map_set id s.threads i j (j + 1) hj
      have hle := safeInv_sum_le h
      simp only [id] at hsum
      refine ⟨?_, by simpa using h.2.1, ?_⟩
      · show cycle s.intStr = to_string ((10000 + ((s.threads.set i (j + 1)).map id).sum : Nat) : Int)
        rw [h.1, cycle_to_string _ (by omega)]
        congr 2
        omega
      · intro x hx
        rcases List.mem_or_eq_of_mem_set hx with hx | hx
        · exact h.2.2 x hx
        · omega
    · exact absurd hs (by simp)

theorem safeInv_run (sched : List Nat) :
    ∀ s s' : SafeState, SafeInv s → safeRun sched s = some s' → SafeInv s' := by
  induction sched with
  | nil =>
    intro s s' h hs
    simp only [safeRun, Option.some.injEq] at hs
    exact hs ▸ h
  | cons i rest ih =>
    intro s s' h hs
    unfold safeRun at hs
    split at hs
    · exact absurd hs (by simp)
    · rename_i s1 h1
      exact ih s1 s' (safeInv_step i s s1 h h1) hs

theorem safeJoined_sum (s : SafeState) (h : SafeInv s) (hj : safeJoined s = true) :
    (s.threads.map id).sum = 10000 := by
  have hall : ∀ j ∈ s.threads, id j = 100 := by
    intro j hmem
    have := (List.all_eq_true.mp hj) j hmem
    simpa using this
  rw [sum_map_eq id 100 s.threads hall, h.2.1]

theorem getElem?_append_cons {α : Type} (pre post : List α) (x : α) :
    (pre ++ x :: post)[pre.length]? = some x := by
  induction pre with
  | nil => simp
  | cons a pre ih => simpa using ih

theorem set_append_cons {α : Type} (pre post : List α) (x y : α) :
    (pre ++ x :: post).set pre.length y = pre ++ y :: post := by
  induction pre with
  | nil => rfl
  | cons a pre ih => simp [ih]

theorem safeRun_append (a b : List Nat) :
    ∀ s s1 : SafeState, safeRun a s = some s1 → safeRun (a ++ b) s = safeRun b s1 := by
  induction a with
  | nil =>
    intro s s1 h
    simp only [safeRun, Option.some.injEq] at h
    rw [List.nil_append, h]
  | cons i rest ih =>
    intro s s1 h
    simp only [List.cons_append, safeRun] at h ⊢
    cases h2 : safeStep i s with
    | none => simp [h2] at h
    | some s2 =>
      simp only [h2] at h ⊢
      exact ih s2 s1 h

theorem safeStep_at (pre post : List Nat) (j : Nat) (str : String) (h : j < 100) :
    safeStep pre.length ⟨str, pre ++ j :: post⟩ = some ⟨cycle str, pre ++ (j + 1) :: post⟩ := by
  unfold safeStep
  simp only [getElem?_append_cons, set_append_cons, h, if_true]

/-- A thread that runs alone for `k` iterations adds `k` to the counter. -/
theorem safeRun_solo (pre post : List Nat) (k : Nat) :
    ∀ n j : Nat, j + k ≤ 100 → n + k ≤ 2147483647 →
      safeRun (List.replicate k pre.length) ⟨to_string (n : Int), pre ++ j :: post⟩ =
        some ⟨to_string ((n + k : Nat) : Int), pre ++ (j + k) :: post⟩ := by
  induction k with
  | zero => intro n j _ _; rfl
  | succ k ih =>
    intro n j hj hn
    rw [List.replicate_succ, safeRun, safeStep_at pre post j _ (by omega)]
    simp only
    rw [cycle_to_string n (by omega), ih (n + 1) (j + 1) (by omega) (by omega)]
    congr 4 <;> omega

/-- The threads `first`, `first + 1`, ... run to their end one after the other. -/
theorem safeRun_soloSchedule (count : Nat) :
    ∀ first n : Nat, n + 100 * count ≤ 2147483647 →
      safeRun (soloSchedule 100 count first)
          ⟨to_string (n : Int), List.replicate first 100 ++ List.replicate count 0⟩ =
        some ⟨to_string ((n + 100 * count : Nat) : Int), List.replicate (first + count) 100⟩ := by
  induction count with
  | zero => intro first n _; simp [soloSchedule, safeRun]
  | succ count ih =>
    intro first n hn
    have hsolo := safeRun_solo (List.replicate first 100) (List.replicate count 0) 100 n 0
      (by omega) (by omega)
    rw [List.length_replicate] at hsolo
    rw [soloSchedule, show List.replicate (count + 1) 0 = 0 :: List.replicate count 0 from rfl,
      safeRun_append _ _ _ _ hsolo]
    have hih := ih (first + 1) (n + 100) (by omega)
    rw [List.replicate_succ', List.append_assoc] at hih
    simp only [List.singleton_append, Nat.zero_add] at hih ⊢
    rw [hih, show n + 100 + 100 * count = n + 100 * (count + 1) by omega,
      show first + 1 + count = first + (count + 1) by omega]

theorem safeRun_complete (prev : SafeState) :
    safeRun (soloSchedule 100 100 0) (safeEnter prev) =
      some ⟨"20000", List.replicate 100 100⟩ := by
  have h := safeRun_soloSchedule 100 0 10000 (by omega)
  rw [safeEnter_eq]
  simp only [List.replicate_zero, List.nil_append, Nat.zero_add] at h
  rw [show to_string ((10000 : Nat) : Int) = "10000" from to_string_10000] at h
  rw [h, show to_string ((10000 + 100 * 100 : Nat) : Int) = "20000" from to_string_20000]

theorem print_line (w : World) (a b c d : String) :
    ((((w.print a).print b).print c).print d).endl =
      { w with cout := w.cout ++ a ++ b ++ (c ++ d ++ "\n") } := by
  simp only [World.print, World.endl, String.append_assoc]

theorem safeJoined_replicate (str : String) :
    safeJoined ⟨str, List.replicate 100 100⟩ = true := by
  rw [safeJoined, List.all_eq_true]
  intro j hj
  rw [List.eq_of_mem_replicate hj]
  rfl

theorem safeRound_of_run (round : Nat) (sched : List Nat) (prev s : SafeState) (w : World)
    (h : safeRun sched (safeEnter prev) = some s) (hj : safeJoined s = true) :
    safeRound round sched prev w =
      some (s, { w with cout := w.cout ++ "(" ++ to_string round ++
        ("/9) safer intStr: " ++ s.intStr ++ "\n") }) := by
  unfold safeRound
  rw [h]
  simp only [hj, if_true, print_line]

theorem safeRound_inv (round : Nat) (sched : List Nat) (prev s : SafeState) (w w' : World)
    (h : safeRound round sched prev w = some (s, w')) :
    safeRun sched (safeEnter prev) = some s ∧ safeJoined s = true ∧
      w' = { w with cout := w.cout ++ "(" ++ to_string round ++
        ("/9) safer intStr: " ++ s.intStr ++ "\n") } := by
  unfold safeRound at h
  cases hr : safeRun sched (safeEnter prev) with
  | none => simp [hr] at h
  | some s1 =>
    simp only [hr] at h
    by_cases hj : safeJoined s1 = true
    · simp only [hj, if_true, print_line, Option.some.injEq, Prod.mk.injEq] at h
      obtain ⟨h1, h2⟩ := h
      subst h1
      exact ⟨rfl, hj, h2.symm⟩
    · simp [hj] at h

theorem safeRound_complete (round : Nat) (prev : SafeState) (w : World) :
    safeRound round (soloSchedule 100 100 0) prev w =
      some (⟨"20000", List.replicate 100 100⟩,
        { w with cout := w.cout ++ "(" ++ to_string round ++ "/9) safer intStr: 20000\n" }) :=
  safeRound_of_run round _ prev _ w (safeRun_complete prev) (safeJoined_replicate _)

theorem safeRun_final (sched : List Nat) (prev s : SafeState)
    (h : safeRun sched (safeEnter prev) = some s) (hj : safeJoined s = true) :
    s.intStr = "20000" := by
  have hinv := safeInv_run sched _ s (safeInv_enter prev) h
  rw [hinv.1, safeJoined_sum s hinv hj]
  exact to_string_20000

/-! ### Every run of a round under the mutex comes to its end -/

theorem safeStep_sum (i : Nat) (s s' : SafeState) (hs : safeStep i s = some s') :
    (s'.threads.map id).sum = (s.threads.map id).sum + 1 := by
  unfold safeStep at hs
  cases hi : s.threads[i]? with
  | none => simp [hi] at hs
  | some j =>
    simp only [hi] at hs
    by_cases hj : j < 100
    · simp only [hj, if_true, Option.some.injEq] at hs
      subst hs
      have hsum := sum_map_set id s.threads i j (j + 1) hi
      simp only [id] at hsum
      dsimp only
      omega
    · simp [hj] at hs

theorem safeRun_sum (sched : List Nat) :
    ∀ s s' : SafeState, safeRun sched s = some s' →
      (s'.threads.map id).sum = (s.threads.map id).sum + sched.length := by
  induction sched with
  | nil =>
    intro s s' hs
    simp only [safeRun, Option.some.injEq] at hs
    subst hs
    rfl
  | cons i rest ih =>
    intro s s' hs
    simp only [safeRun] at hs
    cases h1 : safeStep i s with
    | none => simp [h1] at hs
    | some s1 =>
      simp only [h1] at hs
      rw [ih s1 s' hs, safeStep_sum i s s1 h1, List.length_cons]
      omega

/-- A run of a round of `safeThreads` has at most 10000 steps, and exactly
10000 when all threads have ended. -/
theorem safeRun_length (sched : List Nat) (prev s : SafeState)
    (h : safeRun sched (safeEnter prev) = some s) :
    sched.length ≤ 10000 ∧ (safeJoined s = true → sched.length = 10000) := by
  have hinv := safeInv_run sched _ s (safeInv_enter prev) h
  have hsum := safeRun_sum sched _ s h
  have h0 : ((safeEnter prev).threads.map id).sum = 0 := by
    rw [safeEnter_eq]
    simp
  rw [h0, Nat.zero_add] at hsum
  refine ⟨hsum ▸ safeInv_sum_le hinv, fun hj => ?_⟩
  rw [← hsum]
  exact safeJoined_sum s hinv hj

/-- No run of a round of `safeThreads` is stuck: as long as some thread has not
ended, some thread can take a step. -/
theorem safeRun_progress (sched : List Nat) (prev s : SafeState)
    (h : safeRun sched (safeEnter prev) = some s) (hj : safeJoined s = false) :
    ∃ i s', safeStep i s = some s' := by
  have hinv := safeInv_run sched _ s (safeInv_enter prev) h
  have hex : ∃ j ∈ s.threads, j ≠ 100 := by
    by_contra hne
    have hall : safeJoined s = true := by
      rw [safeJoined, List.all_eq_true]
      intro j hjm
      have : j = 100 := by
        by_contra hj'
        exact hne ⟨j, hjm, hj'⟩
      simp [this]
    rw [hall] at hj
    exact absurd hj (by decide)
  obtain ⟨j, hjm, hj100⟩ := hex
  obtain ⟨i, hi⟩ := List.getElem?_of_mem hjm
  have hlt : j < 100 := lt_of_le_of_ne (hinv.2.2 j hjm) hj100
  refine ⟨i, ⟨cycle s.intStr, s.threads.set i (j + 1)⟩, ?_⟩
  simp only [safeStep, hi, hlt, if_true]

/-! ## The claims about the threads under the mutex -/

/-- C1. In `safeThreads`, for every round and for every order in which the
threads' lock-protected cycles are serialized, the counter text read after all
threads are joined is exactly `"20000"`, and the round prints the line
`(round/9) safer intStr: 20000`. -/
theorem safeThreads_round_ends_at_20000 (round : Nat) (sched : List Nat) (prev : SafeState)
    (w : World) (s : SafeState) (w' : World)
    (h : safeRound round sched prev w = some (s, w')) :
    s.intStr = "20000" ∧
    w'.cout = w.cout ++ "(" ++ to_string round ++ "/9) safer intStr: 20000\n" := by
  obtain ⟨hrun, hj, hw⟩ := safeRound_inv round sched prev s w w' h
  have hs := safeRun_final sched prev s hrun hj
  refine ⟨hs, ?_⟩
  rw [hw, hs]
  rfl

/-- Round 0 under the schedule in which the 100 threads run one after the
other: the round is a complete run and ends at `"20000"`. -/
theorem safeThreads_round_ends_at_20000_witness :
    safeRound 0 (soloSchedule 100 100 0) ⟨"", []⟩ ⟨"", []⟩ =
      some (⟨"20000", List.replicate 100 100⟩, ⟨"(0/9) safer intStr: 20000\n", []⟩) ∧
    (SafeState.mk "20000" (List.replicate 100 100)).intStr = "20000" ∧
    (World.mk "(0/9) safer intStr: 20000\n" []).cout =
      "" ++ "(" ++ to_string 0 ++ "/9) safer intStr: 20000\n" :=
  ⟨safeRound_complete 0 ⟨"", []⟩ ⟨"", []⟩,
   safeThreads_round_ends_at_20000 0 (soloSchedule 100 100 0) ⟨"", []⟩ ⟨"", []⟩ _ _
     (safeRound_complete 0 ⟨"", []⟩ ⟨"", []⟩)⟩

/-- C5. The counter demo has no fallible operation: in every state that a round
of `safeThreads` reaches by lock-protected cycles from the text `"10000"`, the
counter text is the decimal text of an integer `n` with `10000 ≤ n ≤ 20000`; the
conversion of `atoi` consumes the whole text and returns `n`; and `value + 1`
is within the range of a 32-bit `int`, so that `value++` yields `n + 1`. -/
theorem safeThreads_counter_always_parses (sched : List Nat) (prev s : SafeState)
    (h : safeRun sched (safeEnter prev) = some s) :
    ∃ n : Nat, 10000 ≤ n ∧ n ≤ 20000 ∧ s.intStr = to_string (n : Int) ∧
      s.intStr.data = natDigits n ∧
      parseInt s.intStr.data = ((n : Int), []) ∧ atoi s.intStr = n ∧
      (n : Int) + 1 ≤ 2147483647 ∧ increment (atoi s.intStr) = (n : Int) + 1 := by
  have hinv := safeInv_run sched _ s (safeInv_enter prev) h
  have hle := safeInv_sum_le hinv
  refine ⟨10000 + (s.threads.map id).sum, by omega, by omega, hinv.1, ?_, ?_, ?_, by omega, ?_⟩
  · rw [hinv.1, to_string_natCast]
  · rw [hinv.1]
    exact parseInt_to_string _
  · rw [hinv.1]
    exact atoi_to_string _ (by omega)
  · rw [hinv.1, atoi_to_string _ (by omega)]
    exact wrapInt_of_range _ (by omega) (by omega)

theorem safeRun_thread0 (prev : SafeState) :
    safeRun (List.replicate 100 0) (safeEnter prev) =
      some ⟨to_string ((10000 + 100 : Nat) : Int), 100 :: List.replicate 99 0⟩ := by
  rw [safeEnter_eq]
  exact safeRun_solo [] (List.replicate 99 0) 100 10000 0 (by omega) (by omega)

/-- The state of a round in which thread 0 has made its 100 iterations and no
other thread has started: the counter text is that of 10100. -/
theorem safeThreads_counter_always_parses_witness :
    safeRun (List.replicate 100 0) (safeEnter ⟨"", []⟩) =
      some ⟨to_string ((10000 + 100 : Nat) : Int), 100 :: List.replicate 99 0⟩ ∧
    ∃ n : Nat, 10000 ≤ n ∧ n ≤ 20000 ∧
      to_string ((10000 + 100 : Nat) : Int) = to_string (n : Int) ∧
      (to_string ((10000 + 100 : Nat) : Int)).data = natDigits n ∧
      parseInt (to_string ((10000 + 100 : Nat) : Int)).data = ((n : Int), []) ∧
      atoi (to_string ((10000 + 100 : Nat) : Int)) = n ∧
      (n : Int) + 1 ≤ 2147483647 ∧
      increment (atoi (to_string ((10000 + 100 : Nat) : Int))) = (n : Int) + 1 :=
  ⟨safeRun_thread0 ⟨"", []⟩,
   safeThreads_counter_always_parses (List.replicate 100 0) ⟨"", []⟩ _
     (safeRun_thread0 ⟨"", []⟩)⟩

/-! ## The threads without the mutex, reads and stores undivided -/

theorem madSpawn_eq (n : Nat) :
    ∀ s : MadState,
      madSpawn n s = { s with threads := s.threads ++ List.replicate n ⟨0, none⟩ } := by
  induction n with
  | zero => intro s; simp [madSpawn]
  | succ n ih =>
    intro s
    rw [madSpawn, ih]
    simp [List.replicate_succ]

theorem madEnter_eq (prev : MadState) :
    madEnter prev = { intStr := "10000", threads := List.replicate 100 ⟨0, none⟩ } := by
  rw [madEnter, madSpawn_eq]
  rfl

theorem madInv_sum_le {s : MadState} (h : MadInv s) :
    (s.threads.map MadThread.j).sum ≤ 10000 := by
  have := sum_map_le MadThread.j 100 s.threads (fun t ht => (h.2.2 t ht).1)
  rw [h.2.1] at this
  exact this

theorem madInv_enter (prev : MadState) : MadInv (madEnter prev) := by
  rw [madEnter_eq]
  refine ⟨⟨10000, to_string_10000.symm, le_refl _, Nat.le_add_right _ _⟩, by simp, ?_⟩
  intro t ht
  have ht' := List.eq_of_mem_replicate ht
  subst ht'
  exact ⟨Nat.zero_le _, fun v hv => by simp at hv⟩

theorem madInv_step (i : Nat) (s s' : MadState) (h : MadInv s)
    (hs : madStep i s = some s') : MadInv s' := by
  obtain ⟨⟨n, hn, hn0, hn1⟩, hlen, hthr⟩ := h
  have hle : (s.threads.map MadThread.j).sum ≤ 10000 := madInv_sum_le ⟨⟨n, hn, hn0, hn1⟩, hlen, hthr⟩
  unfold madStep at hs
  cases hi : s.threads[i]? with
  | none => simp [hi] at hs
  | some t =>
    have ht := hthr t (List.getElem?_mem hi)
    simp only [hi] at hs
    cases hv : t.value with
    | none =>
      simp only [hv] at hs
      by_cases hj : t.j < 100
      · simp only [hj, if_true, Option.some.injEq] at hs
        subst hs
        have hsum := sum_map_set MadThread.j s.threads i t
          { t with value := some (atoi s.intStr) } hi
        have hsum' : ((s.threads.set i { t with value := some (atoi s.intStr) }).map
            MadThread.j).sum = (s.threads.map MadThread.j).sum := by
          simp only at hsum
          omega
        refine ⟨⟨n, hn, hn0, ?_⟩, by simpa using hlen, ?_⟩
        · show n ≤ 10000 + ((s.threads.set i { t with value := some (atoi s.intStr) }).map
            MadThread.j).sum
          rw [hsum']
          exact hn1
        · intro x hx
          show x.j ≤ 100 ∧ ∀ v : Int, x.value = some v → x.j < 100 ∧ 10000 ≤ v ∧
            v ≤ 10000 + ((((s.threads.set i { t with value := some (atoi s.intStr) }).map
              MadThread.j).sum : Nat) : Int)
          rw [hsum']
          rcases List.mem_or_eq_of_mem_set hx with hx | hx
          · exact hthr x hx
          · subst hx
            refine ⟨ht.1, fun v hv => ?_⟩
            simp only [Option.some.injEq] at hv
            rw [hn, atoi_to_string n (by omega)] at hv
            subst hv
            exact ⟨hj, by omega, by omega⟩
      · simp [hj] at hs
    | some v =>
      simp only [hv, Option.some.injEq] at hs
      subst hs
      obtain ⟨hjlt, hv0, hv1⟩ := ht.2 v hv
      have hsum := sum_map_set MadThread.j s.threads i t { j := t.j + 1, value := none } hi
      have hsum' : ((s.threads.set i { j := t.j + 1, value := none }).map
          MadThread.j).sum = (s.threads.map MadThread.j).sum + 1 := by
        simp only at hsum
        omega
      obtain ⟨m, rfl⟩ := Int.eq_ofNat_of_zero_le (show (0 : Int) ≤ v by omega)
      have hinc : increment (m : Int) = ((m + 1 : Nat) : Int) := by
        unfold increment
        rw [wrapInt_of_range _ (by omega) (by omega)]
        rfl
      refine ⟨⟨m + 1, ?_, by omega, ?_⟩, by simpa using hlen, ?_⟩
      · dsimp only
        rw [hinc]
      · show m + 1 ≤ 10000 + ((s.threads.set i { j := t.j + 1, value := none }).map
          MadThread.j).sum
        rw [hsum']
        omega
      · intro x hx
        show x.j ≤ 100 ∧ ∀ v : Int, x.value = some v → x.j < 100 ∧ 10000 ≤ v ∧
          v ≤ 10000 + ((((s.threads.set i { j := t.j + 1, value := none }).map
            MadThread.j).sum : Nat) : Int)
        rw [hsum']
        rcases List.mem_or_eq_of_mem_set hx with hx | hx
        · obtain ⟨hx1, hx2⟩ := hthr x hx
          refine ⟨hx1, fun v' hv' => ?_⟩
          obtain ⟨a, b, c⟩ := hx2 v' hv'
          exact ⟨a, b, by omega⟩
        · subst hx
          exact ⟨Nat.succ_le_of_lt hjlt, fun v' hv' => by simp at hv'⟩

theorem madInv_run (sched : List Nat) :
    ∀ s s' : MadState, MadInv s → madRun sched s = some s' → MadInv s' := by
  induction sched with
  | nil =>
    intro s s' h hs
    simp only [madRun, Option.some.injEq] at hs
    exact hs ▸ h
  | cons i rest ih =>
    intro s s' h hs
    simp only [madRun] at hs
    cases h1 : madStep i s with
    | none => simp [h1] at hs
    | some s1 =>
      simp only [h1] at hs
      exact ih s1 s' (madInv_step i s s1 h h1) hs

theorem madRun_append (a b : List Nat) :
    ∀ s s1 : MadState, madRun a s = some s1 → madRun (a ++ b) s = madRun b s1 := by
  induction a with
  | nil =>
    intro s s1 h
    simp only [madRun, Option.some.injEq] at h
    rw [List.nil_append, h]
  | cons i rest ih =>
    intro s s1 h
    simp only [List.cons_append, madRun] at h ⊢
    cases h2 : madStep i s with
    | none => simp [h2] at h
    | some s2 =>
      simp only [h2] at h ⊢
      exact ih s2 s1 h

theorem madStep_read_at (pre post : List MadThread) (j : Nat) (str : String) (h : j < 100) :
    madStep pre.length ⟨str, pre ++ ⟨j, none⟩ :: post⟩ =
      some ⟨str, pre ++ ⟨j, some (atoi str)⟩ :: post⟩ := by
  unfold madStep
  simp only [getElem?_append_cons, set_append_cons, h, if_true]

theorem madStep_write_at (pre post : List MadThread) (j : Nat) (str : String) (v : Int) :
    madStep pre.length ⟨str, pre ++ ⟨j, some v⟩ :: post⟩ =
      some ⟨to_string (increment v), pre ++ ⟨j + 1, none⟩ :: post⟩ := by
  unfold madStep
  simp only [getElem?_append_cons, set_append_cons]

/-- A thread that runs alone for `k` iterations (`2 * k` steps) adds `k` to the
counter. -/
theorem madRun_solo (pre post : List MadThread) (k : Nat) :
    ∀ n j : Nat, j + k ≤ 100 → n + k ≤ 2147483647 →
      madRun (List.replicate (2 * k) pre.length)
          ⟨to_string (n : Int), pre ++ ⟨j, none⟩ :: post⟩ =
        some ⟨to_string ((n + k : Nat) : Int), pre ++ ⟨j + k, none⟩ :: post⟩ := by
  induction k with
  | zero => intro n j _ _; rfl
  | succ k ih =>
    intro n j hj hn
    rw [show 2 * (k + 1) = 2 * k + 1 + 1 by omega, List.replicate_succ, List.replicate_succ,
      madRun, madStep_read_at pre post j _ (by omega)]
    simp only
    rw [madRun, madStep_write_at]
    simp only
    have hc : to_string (increment (atoi (to_string (n : Int)))) =
        to_string ((n + 1 : Nat) : Int) := cycle_to_string n (by omega)
    rw [hc, ih (n + 1) (j + 1) (by omega) (by omega),
      show n + 1 + k = n + (k + 1) by omega, show j + 1 + k = j + (k + 1) by omega]

/-- The threads `pre.length`, `pre.length + 1`, ... run to their end one after the
other. -/
theorem madRun_soloSchedule (count : Nat) :
    ∀ (pre : List MadThread) (n : Nat), n + 100 * count ≤ 2147483647 →
      madRun (soloSchedule 200 count pre.length)
          ⟨to_string (n : Int), pre ++ List.replicate count ⟨0, none⟩⟩ =
        some ⟨to_string ((n + 100 * count : Nat) : Int),
          pre ++ List.replicate count ⟨100, none⟩⟩ := by
  induction count with
  | zero => intro pre n _; simp [soloSchedule, madRun]
  | succ count ih =>
    intro pre n hn
    have hsolo := madRun_solo pre (List.replicate count ⟨0, none⟩) 100 n 0 (by omega) (by omega)
    rw [soloSchedule,
      show List.replicate (count + 1) (MadThread.mk 0 none) =
        ⟨0, none⟩ :: List.replicate count ⟨0, none⟩ from rfl,
      madRun_append _ _ _ _ hsolo]
    have hih := ih (pre ++ [⟨100, none⟩]) (n + 100) (by omega)
    rw [List.length_append, List.length_singleton, List.append_assoc, List.append_assoc] at hih
    simp only [List.singleton_append, Nat.zero_add] at hih ⊢
    rw [hih, show n + 100 + 100 * count = n + 100 * (count + 1) by omega]
    rfl

theorem madRun_complete (prev : MadState) :
    madRun (soloSchedule 200 100 0) (madEnter prev) =
      some ⟨"20000", List.replicate 100 ⟨100, none⟩⟩ := by
  have h := madRun_soloSchedule 100 [] 10000 (by omega)
  simp only [List.length_nil, List.nil_append] at h
  rw [show to_string ((10000 : Nat) : Int) = "10000" from to_string_10000] at h
  rw [madEnter_eq, h, show to_string ((10000 + 100 * 100 : Nat) : Int) = "20000" from
    to_string_20000]

/-- Two threads both read the counter before either stores: two iterations are
made and the counter has advanced by one only. -/
theorem madRun_lostUpdate_head (post : List MadThread) (n : Nat) (hn : n < 2147483647) :
    madRun [0, 1, 0, 1] ⟨to_string (n : Int), ⟨0, none⟩ :: ⟨0, none⟩ :: post⟩ =
      some ⟨to_string ((n + 1 : Nat) : Int), ⟨1, none⟩ :: ⟨1, none⟩ :: post⟩ := by
  have hc : to_string (increment (atoi (to_string (n : Int)))) =
      to_string ((n + 1 : Nat) : Int) := cycle_to_string n hn
  have r0 := madStep_read_at [] (⟨0, none⟩ :: post) 0 (to_string (n : Int)) (by omega)
  have r1 := madStep_read_at [⟨0, some (atoi (to_string (n : Int)))⟩] post 0
    (to_string (n : Int)) (by omega)
  have w0 := madStep_write_at [] (⟨0, some (atoi (to_string (n : Int)))⟩ :: post) 0
    (to_string (n : Int)) (atoi (to_string (n : Int)))
  have w1 := madStep_write_at [⟨1, none⟩] post 0
    (to_string (increment (atoi (to_string (n : Int))))) (atoi (to_string (n : Int)))
  simp only [List.length_nil, List.nil_append, List.length_singleton, List.singleton_append,
    Nat.zero_add, hc] at r0 r1 w0 w1
  simp only [madRun, r0, r1, w0, w1]

theorem madRun_lostUpdate (prev : MadState) :
    madRun lostUpdateSchedule (madEnter prev) =
      some ⟨"19999", List.replicate 100 ⟨100, none⟩⟩ := by
  have h1 := madRun_lostUpdate_head (List.replicate 98 ⟨0, none⟩) 10000 (by omega)
  have h2 := madRun_solo [] (⟨1, none⟩ :: List.replicate 98 ⟨0, none⟩) 99 10001 1
    (by omega) (by omega)
  have h3 := madRun_solo [⟨100, none⟩] (List.replicate 98 ⟨0, none⟩) 99 10100 1
    (by omega) (by omega)
  have h4 := madRun_soloSchedule 98 [⟨100, none⟩, ⟨100, none⟩] 10199 (by omega)
  have e1 : madRun ([0, 1, 0, 1] ++ List.replicate 198 0) (madEnter prev) =
      some ⟨to_string ((10100 : Nat) : Int),
        ⟨100, none⟩ :: ⟨1, none⟩ :: List.replicate 98 ⟨0, none⟩⟩ := by
    have h0 : madRun [0, 1, 0, 1] (madEnter prev) =
        some ⟨to_string ((10001 : Nat) : Int),
          ⟨1, none⟩ :: ⟨1, none⟩ :: List.replicate 98 ⟨0, none⟩⟩ := by
      rw [madEnter_eq]
      exact h1
    rw [madRun_append _ _ _ _ h0]
    exact h2
  have e2 : madRun ([0, 1, 0, 1] ++ List.replicate 198 0 ++ List.replicate 198 1)
      (madEnter prev) =
      some ⟨to_string ((10199 : Nat) : Int),
        ⟨100, none⟩ :: ⟨100, none⟩ :: List.replicate 98 ⟨0, none⟩⟩ := by
    rw [madRun_append _ _ _ _ e1]
    exact h3
  rw [lostUpdateSchedule, madRun_append _ _ _ _ e2]
  rw [show to_string ((19999 : Nat) : Int) = "19999" from by decide] at h4
  exact h4

theorem madJoined_replicate (str : String) :
    madJoined ⟨str, List.replicate 100 ⟨100, none⟩⟩ = true := by
  rw [madJoined, List.all_eq_true]
  intro t ht
  rw [List.eq_of_mem_replicate ht]
  rfl

theorem madRound_of_run (round : Nat) (sched : List Nat) (prev s : MadState) (w : World)
    (h : madRun sched (madEnter prev) = some s) (hj : madJoined s = true) :
    madRound round sched prev w =
      some (s, { w with cout := w.cout ++ "(" ++ to_string round ++
        ("/9) intStr: " ++ s.intStr ++ "\n") }) := by
  unfold madRound
  rw [h]
  simp only [hj, if_true, print_line]

theorem madRound_complete (round : Nat) (prev : MadState) (w : World) :
    madRound round (soloSchedule 200 100 0) prev w =
      some (⟨"20000", List.replicate 100 ⟨100, none⟩⟩,
        { w with cout := w.cout ++ "(" ++ to_string round ++ "/9) intStr: 20000\n" }) :=
  madRound_of_run round _ prev _ w (madRun_complete prev) (madJoined_replicate _)

theorem madRound_lostUpdate (round : Nat) (prev : MadState) (w : World) :
    madRound round lostUpdateSchedule prev w =
      some (⟨"19999", List.replicate 100 ⟨100, none⟩⟩,
        { w with cout := w.cout ++ "(" ++ to_string round ++ "/9) intStr: 19999\n" }) :=
  madRound_of_run round _ prev _ w (madRun_lostUpdate prev) (madJoined_replicate _)

/-! ### Every run of `madStep` in a round comes to its end -/

theorem madStep_steps (i : Nat) (s s' : MadState) (hs : madStep i s = some s') :
    (s'.threads.map madSteps).sum = (s.threads.map madSteps).sum + 1 := by
  unfold madStep at hs
  cases hi : s.threads[i]? with
  | none => simp [hi] at hs
  | some t =>
    simp only [hi] at hs
    cases hv : t.value with
    | none =>
      simp only [hv] at hs
      by_cases hj : t.j < 100
      · simp only [hj, if_true, Option.some.injEq] at hs
        subst hs
        have hsum := sum_map_set madSteps s.threads i t
          { t with value := some (atoi s.intStr) } hi
        simp only [madSteps, hv] at hsum
        dsimp only
        omega
      · simp [hj] at hs
    | some v =>
      simp only [hv, Option.some.injEq] at hs
      subst hs
      have hsum := sum_map_set madSteps s.threads i t { j := t.j + 1, value := none } hi
      simp only [madSteps, hv] at hsum
      dsimp only
      omega

theorem madRun_steps (sched : List Nat) :
    ∀ s s' : MadState, madRun sched s = some s' →
      (s'.threads.map madSteps).sum = (s.threads.map madSteps).sum + sched.length := by
  induction sched with
  | nil =>
    intro s s' hs
    simp only [madRun, Option.some.injEq] at hs
    subst hs
    rfl
  | cons i rest ih =>
    intro s s' hs
    simp only [madRun] at hs
    cases h1 : madStep i s with
    | none => simp [h1] at hs
    | some s1 =>
      simp only [h1] at hs
      rw [ih s1 s' hs, madStep_steps i s s1 h1, List.length_cons]
      omega

/-- A run of `madStep` in a round has at most 20000 steps (a read and a store
for each of the 10000 iterations). -/
theorem madRun_length (sched : List Nat) (prev s : MadState)
    (h : madRun sched (madEnter prev) = some s) : sched.length ≤ 20000 := by
  have hinv := madInv_run sched _ s (madInv_enter prev) h
  have hsum := madRun_steps sched _ s h
  have h0 : ((madEnter prev).threads.map madSteps).sum = 0 := by
    rw [madEnter_eq]
    simp [madSteps]
  rw [h0, Nat.zero_add] at hsum
  have hb := sum_map_le madSteps 200 s.threads (fun t ht => by
    obtain ⟨h1, h2⟩ := hinv.2.2 t ht
    unfold madSteps
    cases hv : t.value with
    | none => simp only; omega
    | some v =>
      have := (h2 v hv).1
      simp only
      omega)
  rw [hinv.2.1] at hb
  omega

/-- No run of `madStep` in a round is stuck: as long as some thread has not
ended, some thread can take a step. -/
theorem madRun_progress (sched : List Nat) (prev s : MadState)
    (h : madRun sched (madEnter prev) = some s) (hj : madJoined s = false) :
    ∃ i s', madStep i s = some s' := by
  have hinv := madInv_run sched _ s (madInv_enter prev) h
  have hex : ∃ t ∈ s.threads, ¬ (t.j = 100 ∧ t.value = none) := by
    by_contra hne
    have hall : madJoined s = true := by
      rw [madJoined, List.all_eq_true]
      intro t htm
      have : t.j = 100 ∧ t.value = none := by
        by_contra ht'
        exact hne ⟨t, htm, ht'⟩
      simp [this.1, this.2]
    rw [hall] at hj
    exact absurd hj (by decide)
  obtain ⟨t, htm, ht⟩ := hex
  obtain ⟨i, hi⟩ := List.getElem?_of_mem htm
  cases hv : t.value with
  | none =>
    have hlt : t.j < 100 :=
      lt_of_le_of_ne (hinv.2.2 t htm).1 (fun h100 => ht ⟨h100, hv⟩)
    refine ⟨i, ⟨s.intStr, s.threads.set i { t with value := some (atoi s.intStr) }⟩, ?_⟩
    simp only [madStep, hi, hv, hlt, if_true]
  | some v =>
    refine ⟨i, ⟨to_string (increment v), s.threads.set i { j := t.j + 1, value := none }⟩, ?_⟩
    simp only [madStep, hi, hv]

/-! ## The threads without the mutex, character by character -/

/-- C3. In `madThreads` the final counter value of a round is not determined by
the program: for every round there are two interleavings of the threads' reads
and stores, both complete runs, that end the round with different counter
values, 20000 and 19999, the second strictly less than 20000 (a lost update),
and so with different printed lines. -/
theorem madThreads_final_value_not_determined (round : Nat) (prev : MadState) (w : World) :
    ∃ (sched₁ sched₂ : List Nat) (s₁ s₂ : MadState) (w₁ w₂ : World),
      madRound round sched₁ prev w = some (s₁, w₁) ∧
      madRound round sched₂ prev w = some (s₂, w₂) ∧
      s₁.intStr ≠ s₂.intStr ∧ atoi s₁.intStr ≠ atoi s₂.intStr ∧
      atoi s₁.intStr = 20000 ∧ atoi s₂.intStr = 19999 ∧ atoi s₂.intStr < 20000 ∧
      w₁.cout ≠ w₂.cout := by
  have a1 : atoi "20000" = 20000 := atoi_to_string 20000 (by omega)
  have a2 : atoi "19999" = 19999 := atoi_to_string 19999 (by omega)
  refine ⟨soloSchedule 200 100 0, lostUpdateSchedule, _, _, _, _,
    madRound_complete round prev w, madRound_lostUpdate round prev w, by decide, ?_, a1, a2,
    ?_, ?_⟩
  · show atoi "20000" ≠ atoi "19999"
    rw [a1, a2]
    decide
  · show atoi "19999" < 20000
    rw [a2]
    decide
  · show w.cout ++ "(" ++ to_string round ++ "/9) intStr: 20000\n" ≠
      w.cout ++ "(" ++ to_string round ++ "/9) intStr: 19999\n"
    intro h
    have h' := congrArg String.data h
    simp only [String.data_append, List.append_assoc, List.append_cancel_left_eq] at h'
    exact absurd h' (by decide)

/-! ## Round isolation -/

theorem madRounds_prev (scheds : Nat → List Nat) (n round : Nat) (prev prev' : MadState)
    (w : World) : madRounds scheds n round prev w = madRounds scheds n round prev' w ∨ n = 0 := by
  cases n with
  | zero => exact Or.inr rfl
  | succ n =>
    left
    simp only [madRounds, madRound, madEnter_eq]

theorem safeRounds_prev (scheds : Nat → List Nat) (n round : Nat) (prev prev' : SafeState)
    (w : World) :
    safeRounds scheds n round prev w = safeRounds scheds n round prev' w ∨ n = 0 := by
  cases n with
  | zero => exact Or.inr rfl
  | succ n =>
    left
    simp only [safeRounds, safeRound, safeEnter_eq]

/-- C4. Round isolation: in both `madThreads` and `safeThreads`, whatever the
previous round left (`prev`, `prev'`, of any counter text), a round begins with
the counter text `"10000"` and 100 fresh threads, and what the round does is
the same; so neither function depends on the state it is entered with. -/
theorem rounds_are_isolated (round : Nat) (sched : List Nat) (scheds : Nat → List Nat)
    (w : World) :
    (∀ prev prev' : MadState,
      (madEnter prev).intStr = "10000" ∧
      (madEnter prev).threads = List.replicate 100 ⟨0, none⟩ ∧
      madEnter prev = madEnter prev' ∧
      madRound round sched prev w = madRound round sched prev' w ∧
      madThreads scheds prev w = madThreads scheds prev' w) ∧
    (∀ prev prev' : SafeState,
      (safeEnter prev).intStr = "10000" ∧
      (safeEnter prev).threads = List.replicate 100 0 ∧
      safeEnter prev = safeEnter prev' ∧
      safeRound round sched prev w = safeRound round sched prev' w ∧
      safeThreads scheds prev w = safeThreads scheds prev' w) := by
  constructor
  · intro prev prev'
    refine ⟨by rw [madEnter_eq], by rw [madEnter_eq], by rw [madEnter_eq, madEnter_eq], ?_, ?_⟩
    · simp only [madRound, madEnter_eq]
    · exact (madRounds_prev scheds 10 0 prev prev' w).resolve_right (by decide)
  · intro prev prev'
    refine ⟨by rw [safeEnter_eq], by rw [safeEnter_eq], by rw [safeEnter_eq, safeEnter_eq],
      ?_, ?_⟩
    · simp only [safeRound, safeEnter_eq]
    · exact (safeRounds_prev scheds 10 0 prev prev' w).resolve_right (by decide)

/-! ## The sequential examples -/

/-- C8. One read-modify-write cycle increments the text counter: for every
integer `n` with `0 ≤ n < 2^31 - 1`, `atoi (to_string n) = n` and the cycle turns
the text `to_string n` into `to_string (n + 1)`; and `k ≤ 10000` consecutive
cycles from `"10000"` give the decimal text of `10000 + k`. -/
theorem cycle_increments_counter :
    (∀ n : Int, 0 ≤ n → n < 2 ^ 31 - 1 →
      atoi (to_string n) = n ∧ cycle (to_string n) = to_string (n + 1)) ∧
    (∀ k : Nat, k ≤ 10000 → cycle^[k] "10000" = to_string (10000 + (k : Int))) := by
  constructor
  · intro n h0 h1
    obtain ⟨m, rfl⟩ := Int.eq_ofNat_of_zero_le h0
    have hm : m < 2147483647 := by
      norm_num at h1
      omega
    exact ⟨atoi_to_string m (by omega), by rw [cycle_to_string m hm]; rfl⟩
  · intro k hk
    have h := iterate_cycle k 10000 (by omega)
    rw [show to_string ((10000 : Nat) : Int) = "10000" from to_string_10000] at h
    rw [h]
    congr 1

/-- The cycle at `n = 19999`, the last value a cycle of a round increments, and
`k = 10000` cycles, the number of cycles of a round. -/
theorem cycle_increments_counter_witness :
    (atoi (to_string 19999) = 19999 ∧ cycle (to_string 19999) = to_string (19999 + 1)) ∧
    cycle^[10000] "10000" = to_string (10000 + ((10000 : Nat) : Int)) :=
  ⟨cycle_increments_counter.1 19999 (by decide) (by decide),
   cycle_increments_counter.2 10000 (by decide)⟩

/-- C9. For every string `s`, `justPrintISwear` called on a variable holding `s`
prints the line `s` and leaves the caller's variable holding `"I lied! "`, which
is `s` only when `s` was that very text; and `beDeceived` prints the line
`Innocent String` followed by the line `I lied! `. -/
theorem justPrintISwear_mutates_argument (s : String) (w : World) :
    (justPrintISwear s w).2 = { w with cout := w.cout ++ s ++ "\n" } ∧
    (justPrintISwear s w).1 = "I lied! " ∧
    ((justPrintISwear s w).1 = s ↔ s = "I lied! ") ∧
    beDeceived w = { w with cout := w.cout ++ "Innocent String\nI lied! \n" } := by
  refine ⟨rfl, rfl, ⟨fun h => h.symm, fun h => h.symm⟩, ?_⟩
  simp only [beDeceived, justPrintISwear, World.print, World.endl, String.append_assoc]
  rfl

/-- C10. After `passVec` hands its string to `doWithStr` with `std::move`, the
caller's string is empty: `doWithStr` prints the string it was given and leaves
the caller's string empty, and `passVec` prints the line `Test` and then the
line `str is now: ` followed by nothing. -/
theorem passVec_prints_empty_string (w : World) :
    (∀ s : String, doWithStr s w = ("", { w with cout := w.cout ++ s ++ "\n" })) ∧
    (doWithStr "Test" w).1 = "" ∧
    passVec w = { w with cout := w.cout ++ "Test\nstr is now: \n" } := by
  refine ⟨fun s => rfl, rfl, ?_⟩
  simp only [passVec, doWithStr, moveString, World.print, World.endl, String.append_assoc]
  rfl

/-- C6. The function `handleFailures` checks the status of
`somethingThatMayFail`, which is `false`: it prints exactly the one line
`Something failed. Aborting...` and returns; the only call recorded is that of
`somethingThatMayFail`, so `somethingThatMayFailWithResult` is never called. -/
theorem handleFailures_aborts (w : World) :
    (somethingThatMayFail w).1 = false ∧
    handleFailures w =
      { cout := w.cout ++ "Something failed. Aborting...\n",
        calls := w.calls ++ ["somethingThatMayFail"] } ∧
    ("somethingThatMayFailWithResult" ∈ (handleFailures w).calls ↔
      "somethingThatMayFailWithResult" ∈ w.calls) := by
  have h : handleFailures w =
      { cout := w.cout ++ "Something failed. Aborting...\n",
        calls := w.calls ++ ["somethingThatMayFail"] } := by
    simp only [handleFailures, somethingThatMayFail, World.print, World.endl, World.called,
      String.append_assoc]
    rfl
  refine ⟨rfl, h, ?_⟩
  rw [h]
  simp

/-- C7. The function `doWithFailures` ignores both failures: both operations
return `false`, `somethingThatMayFailWithResult` hands its output string back
unchanged, and `doWithFailures` runs to its end, where both calls have been
made and its only output is one empty line. -/
theorem doWithFailures_ignores_failures (w : World) :
    (somethingThatMayFail w).1 = false ∧
    (∀ v : String, (somethingThatMayFailWithResult v w).1 = false ∧
      (somethingThatMayFailWithResult v w).2.1 = v) ∧
    doWithFailures w =
      { cout := w.cout ++ "\n",
        calls := w.calls ++ ["somethingThatMayFail", "somethingThatMayFailWithResult"] } := by
  refine ⟨rfl, fun v => ⟨rfl, rfl⟩, ?_⟩
  simp [doWithFailures, somethingThatMayFail, somethingThatMayFailWithResult, World.print,
    World.endl, World.called]

end CppMisadventures
